import Mathlib

/-!
Verification development for the cellar-drawing program (`main.py`).

The program is embedded shallowly:
* Python machine integers become `Nat` (all pixel quantities in the program
  are nonnegative, and Python `//` on nonnegative operands agrees with `Nat`
  division);
* Python floats are idealized as exact rationals `ℚ`; `int(x)` on a
  nonnegative float becomes `Int.floor` / `Nat` conversion;
* the global `random` module is modelled as a stream `ℕ → ℚ` of raw draws in
  `[0,1]`, with `random.randint` / `random.uniform` mapping a raw draw into
  the requested range exactly as a uniform deviate would be mapped;
* the recursive partitioner `Shelf.divide` is modelled both with an abstract
  split-point oracle (`divideF`, fallible via fuel, used for the correctness
  and termination claims) and with the stream (`divideS`, used in the whole
  program trace);
* the turtle drawing surface is modelled as a trace: the list of drawing
  calls (`DrawCall`) emitted in program order, with the exact positions,
  shapes and colors passed by the source.
-/

/-! ## GlobalSetup constants (from `class GlobalSetup`) -/

def windowW : ℕ := 1600
def windowH : ℕ := 900

def padLeft : ℕ := 15 * windowW / 100
def padRight : ℕ := 15 * windowW / 100
def padTop : ℕ := 15 * windowH / 100
def padBottom : ℕ := 15 * windowH / 100

def rackThickness : ℕ := 5

def realH : ℕ := windowH - padTop - padBottom
def realW : ℕ := windowW - padLeft - padRight

def minShelves : ℕ := max (realH / 90) 3
def maxShelves : ℕ := max (realH / 40) 3
def minRacksC : ℕ := max (realW / 250) 2
def maxRacksC : ℕ := max (realW / 100) 2
def racksThreshold : ℕ := (minRacksC + maxRacksC) / 2

/-- The two item-width regimes of `GlobalSetup` (min_item_width,
max_item_width), selected by the rack count against the threshold. -/
def itemBounds (nRacks : ℕ) : ℚ × ℚ :=
  if nRacks < racksThreshold then (8/100, 18/100) else (12/100, 27/100)

/-! ## Random primitives

A raw draw is a rational `u`; well-formed draws lie in `[0,1]`.  `clamp01`
makes the mapping total without affecting well-formed draws. -/

def clamp01 (u : ℚ) : ℚ := min 1 (max 0 u)

/-- Model of `random.randint(a, b)`: inclusive uniform integer; a raw deviate
`u ∈ [0,1)` is mapped to `a + ⌊u * (b - a + 1)⌋`, clamped into range. -/
def randintN (a b : ℕ) (u : ℚ) : ℕ :=
  a + min (b - a) (⌊clamp01 u * ((b : ℚ) - a + 1)⌋.toNat)

/-- Model of `random.uniform(a, b)`: `a + u * (b - a)` for a raw deviate `u ∈ [0,1]`. -/
def uniformQ (a b u : ℚ) : ℚ := a + clamp01 u * (b - a)

theorem clamp01_nonneg (u : ℚ) : 0 ≤ clamp01 u :=
  le_min (by norm_num) (le_max_left 0 u)

theorem clamp01_le_one (u : ℚ) : clamp01 u ≤ 1 := min_le_left 1 (max 0 u)

theorem uniformQ_mem (a b u : ℚ) (h : a ≤ b) :
    a ≤ uniformQ a b u ∧ uniformQ a b u ≤ b := by
  unfold uniformQ
  have h0 := clamp01_nonneg u
  have h1 := clamp01_le_one u
  constructor
  · nlinarith
  · nlinarith

theorem le_randintN (a b : ℕ) (u : ℚ) : a ≤ randintN a b u :=
  Nat.le_add_right a _

theorem randintN_le (a b : ℕ) (u : ℚ) (h : a ≤ b) : randintN a b u ≤ b := by
  unfold randintN
  have : min (b - a) (⌊clamp01 u * ((b : ℚ) - a + 1)⌋.toNat) ≤ b - a :=
    min_le_left _ _
  omega

/-! ## The interval partitioner (`Shelf.divide`)

`divideF pick minW maxW fuel b e` runs the recursive subdivision of
`[b, e]`, obtaining each split point from the oracle `pick lo hi` (the
source calls `random.uniform(begin + min_item_width, end - min_item_width)`
there).  The source recursion has no fuel; here fuel exhaustion returns
`none`, and termination is proved by showing sufficient fuel always yields
`some`. -/

def divideF (pick : ℚ → ℚ → ℚ) (minW maxW : ℚ) :
    ℕ → ℚ → ℚ → Option (List (ℚ × ℚ))
  | 0, _, _ => none
  | f + 1, b, e =>
    if maxW < e - b then
      let p := pick (b + minW) (e - minW)
      match divideF pick minW maxW f b p, divideF pick minW maxW f p e with
      | some l, some r => some (l ++ r)
      | _, _ => none
    else
      some [(b, e)]

theorem divideF_succ (pick : ℚ → ℚ → ℚ) (minW maxW : ℚ) (f : ℕ) (b e : ℚ) :
    divideF pick minW maxW (f + 1) b e =
      if maxW < e - b then
        match divideF pick minW maxW f b (pick (b + minW) (e - minW)),
            divideF pick minW maxW f (pick (b + minW) (e - minW)) e with
        | some l, some r => some (l ++ r)
        | _, _ => none
      else
        some [(b, e)] := rfl

/-- The oracle returns a point of the requested (nonempty) range, as
`random.uniform` does. -/
def ValidPick (pick : ℚ → ℚ → ℚ) : Prop :=
  ∀ lo hi : ℚ, lo ≤ hi → lo ≤ pick lo hi ∧ pick lo hi ≤ hi

/-- Predicate `isTiling b e l`: `l` is a nonempty left-to-right tiling of `[b, e]`:
the first interval begins at `b`, each interval ends where the next begins,
and the last interval ends at `e`. -/
def isTiling (b e : ℚ) : List (ℚ × ℚ) → Bool
  | [] => false
  | [p] => decide (p.1 = b) && decide (p.2 = e)
  | p :: q :: rest => decide (p.1 = b) && isTiling p.2 e (q :: rest)

theorem isTiling_ne_nil {b e : ℚ} {l : List (ℚ × ℚ)}
    (h : isTiling b e l = true) : l ≠ [] := by
  cases l with
  | nil => simp [isTiling] at h
  | cons p rest => simp

theorem isTiling_head {b e : ℚ} {p : ℚ × ℚ} {rest : List (ℚ × ℚ)}
    (h : isTiling b e (p :: rest) = true) : p.1 = b := by
  cases rest with
  | nil => simp [isTiling] at h; exact h.1
  | cons q rest' => simp [isTiling] at h; exact h.1

theorem isTiling_append {b m e : ℚ} {l r : List (ℚ × ℚ)}
    (hl : isTiling b m l = true) (hr : isTiling m e r = true) :
    isTiling b e (l ++ r) = true := by
  induction l generalizing b with
  | nil => simp [isTiling] at hl
  | cons p rest ih =>
    cases rest with
    | nil =>
      simp [isTiling] at hl
      obtain ⟨h1, h2⟩ := hl
      cases r with
      | nil => simp [isTiling] at hr
      | cons q rest' =>
        simp only [List.singleton_append, isTiling]
        rw [h2]
        simp [h1, hr]
    | cons q rest' =>
      simp only [isTiling] at hl
      obtain ⟨h1, h2⟩ := (by simpa using hl : p.1 = b ∧ isTiling p.2 m (q :: rest') = true)
      have := ih (b := p.2) h2
      simp only [List.cons_append] at this ⊢
      simp only [isTiling]
      simp [h1, this]

theorem isTiling_sum {b e : ℚ} {l : List (ℚ × ℚ)}
    (h : isTiling b e l = true) :
    (l.map fun p => p.2 - p.1).sum = e - b := by
  induction l generalizing b with
  | nil => simp [isTiling] at h
  | cons p rest ih =>
    cases rest with
    | nil =>
      simp [isTiling] at h
      simp [h.1, h.2]
    | cons q rest' =>
      simp only [isTiling] at h
      obtain ⟨h1, h2⟩ := (by simpa using h : p.1 = b ∧ isTiling p.2 e (q :: rest') = true)
      have := ih (b := p.2) h2
      simp only [List.map_cons, List.sum_cons] at this ⊢
      rw [this, h1]
      ring

/-- Soundness of the partitioner: any successful run on a span of length at
least `minW` produces a tiling whose leaf lengths all lie in
`[minW, maxW]`. -/
theorem divideF_sound (pick : ℚ → ℚ → ℚ) (minW maxW : ℚ)
    (hpick : ValidPick pick) (hmin : 0 < minW) (hmm : 2 * minW ≤ maxW) :
    ∀ (f : ℕ) (b e : ℚ) (l : List (ℚ × ℚ)),
      minW ≤ e - b → divideF pick minW maxW f b e = some l →
      isTiling b e l = true ∧
        ∀ p ∈ l, minW ≤ p.2 - p.1 ∧ p.2 - p.1 ≤ maxW := by
  intro f
  induction f with
  | zero => intro b e l _ hrun; simp [divideF] at hrun
  | succ f ih =>
    intro b e l hspan hrun
    by_cases hc : maxW < e - b
    · have hrange : b + minW ≤ e - minW := by linarith
      obtain ⟨hp1, hp2⟩ := hpick _ _ hrange
      set p := pick (b + minW) (e - minW) with hp
      simp only [divideF, if_pos hc] at hrun
      cases hL : divideF pick minW maxW f b p with
      | none => rw [hL] at hrun; cases hrun
      | some L =>
        cases hR : divideF pick minW maxW f p e with
        | none => rw [hL, hR] at hrun; cases hrun
        | some R =>
          rw [hL, hR] at hrun
          injection hrun with hrun
          subst hrun
          have hLs := ih b p L (by linarith) hL
          have hRs := ih p e R (by linarith) hR
          refine ⟨isTiling_append hLs.1 hRs.1, ?_⟩
          intro q hq
          rcases List.mem_append.mp hq with hq | hq
          · exact hLs.2 q hq
          · exact hRs.2 q hq
    · simp only [divideF, if_neg hc] at hrun
      injection hrun with hrun
      subst hrun
      refine ⟨by simp [isTiling], ?_⟩
      intro q hq
      simp at hq
      subst hq
      exact ⟨hspan, by linarith⟩

/-- C1: a call of the partitioner with `2 * min_item_width ≤ max_item_width`
and `end - begin > max_item_width` appends a sequence of intervals that
exactly tiles `[begin, end]` left-to-right (first begins at `begin`, each
end equals the next begin, last ends at `end`, lengths sum to
`end - begin`), with every length in `[min_item_width, max_item_width]`. -/
theorem divide_tiles_and_bounds
    (pick : ℚ → ℚ → ℚ) (minW maxW b e : ℚ) (f : ℕ) (l : List (ℚ × ℚ))
    (hpick : ValidPick pick) (hmin : 0 < minW) (hmm : 2 * minW ≤ maxW)
    (hspan : maxW < e - b)
    (hrun : divideF pick minW maxW f b e = some l) :
    isTiling b e l = true ∧
      (∀ p ∈ l, minW ≤ p.2 - p.1 ∧ p.2 - p.1 ≤ maxW) ∧
      (l.map fun p => p.2 - p.1).sum = e - b := by
  have h := divideF_sound pick minW maxW hpick hmin hmm f b e l
    (by linarith) hrun
  exact ⟨h.1, h.2, isTiling_sum h.1⟩

/-- Midpoint oracle used to instantiate witnesses (`uniformQ` at raw draw
`1/2`). -/
def midPick (lo hi : ℚ) : ℚ := uniformQ lo hi (1/2)

unseal Rat.add Rat.mul Rat.sub Rat.inv in
theorem divide_tiles_and_bounds_witness :
    isTiling 0 1 [((0:ℚ), (1:ℚ)/4), (1/4, 1/2), (1/2, 3/4), (3/4, 1)] = true ∧
      ((12:ℚ)/100 ≤ 27/100) :=
  ⟨(divide_tiles_and_bounds midPick (12/100) (27/100) 0 1 8
      [((0:ℚ), (1:ℚ)/4), (1/4, 1/2), (1/2, 3/4), (3/4, 1)]
      (fun lo hi h => uniformQ_mem lo hi (1/2) h)
      (by norm_num) (by norm_num) (by norm_num) (by decide)).1,
    by norm_num⟩

/-! ## Termination of the partitioner (C3)

Each recursive call strictly shrinks the span by at least `min_item_width`
on each side, so fuel linear in the span suffices. -/

theorem divideF_isSome (pick : ℚ → ℚ → ℚ) (minW maxW : ℚ)
    (hpick : ValidPick pick) (hmin : 0 < minW) (hmm : 2 * minW ≤ maxW) :
    ∀ (f : ℕ) (b e : ℚ), e - b ≤ maxW + minW * f →
      (divideF pick minW maxW (f + 1) b e).isSome = true := by
  intro f
  induction f with
  | zero =>
    intro b e hle
    have hc : ¬ (maxW < e - b) := by
      push_neg
      simpa using hle
    simp [divideF, hc]
  | succ f ih =>
    intro b e hle
    by_cases hc : maxW < e - b
    · have hrange : b + minW ≤ e - minW := by linarith
      obtain ⟨hp1, hp2⟩ := hpick _ _ hrange
      have hcast : ((f + 1 : ℕ) : ℚ) = (f : ℚ) + 1 := by push_cast; ring
      have hle' : e - b ≤ maxW + minW * f + minW := by
        rw [hcast] at hle; linarith [hle, mul_add minW (f : ℚ) 1]
      have hL := ih b (pick (b + minW) (e - minW)) (by linarith)
      have hR := ih (pick (b + minW) (e - minW)) e (by linarith)
      obtain ⟨L, hLs⟩ := Option.isSome_iff_exists.mp hL
      obtain ⟨R, hRs⟩ := Option.isSome_iff_exists.mp hR
      rw [divideF_succ, if_pos hc, hLs, hRs]
      rfl
    · simp [divideF, hc]

/-- C3: under `0 < min_item_width` and `2 * min_item_width ≤
max_item_width`, the recursive `Shelf.divide` terminates on every input
interval (fuel linear in the span always returns a result), and this
precondition holds in both item-width regimes derived by the configuration
(`0.18 ≥ 2 * 0.08` and `0.27 ≥ 2 * 0.12`). -/
theorem divide_terminates_on_config :
    (∀ n : ℕ, 0 < (itemBounds n).1 ∧ 2 * (itemBounds n).1 ≤ (itemBounds n).2) ∧
    (∀ (pick : ℚ → ℚ → ℚ) (minW maxW : ℚ), ValidPick pick → 0 < minW →
      2 * minW ≤ maxW → ∀ (f : ℕ) (b e : ℚ), e - b ≤ maxW + minW * f →
      (divideF pick minW maxW (f + 1) b e).isSome = true) := by
  constructor
  · intro n
    unfold itemBounds
    split <;> norm_num
  · intro pick minW maxW hpick hmin hmm f b e hle
    exact divideF_isSome pick minW maxW hpick hmin hmm f b e hle

theorem divide_terminates_witness :
    (divideF midPick (8/100) (18/100) (12 + 1) 0 1).isSome = true :=
  divide_terminates_on_config.2 midPick (8/100) (18/100)
    (fun lo hi h => uniformQ_mem lo hi (1/2) h)
    (by norm_num) (by norm_num) 12 0 1 (by norm_num)

/-! ## Pixel widths (C8)

`Shelf.__init__` turns each partition length into a pixel width via
`int(length * self.width)` (truncation; lengths are positive, so this is
the floor). -/

def pixelWidth (w : ℕ) (p : ℚ × ℚ) : ℤ := ⌊(p.2 - p.1) * w⌋

def pixelWidths (w : ℕ) (l : List (ℚ × ℚ)) : List ℤ := l.map (pixelWidth w)

theorem floor_add_floor_le (x y : ℚ) : ⌊x⌋ + ⌊y⌋ ≤ ⌊x + y⌋ := by
  have hx := Int.floor_le x
  have hy := Int.floor_le y
  exact Int.le_floor.mpr (by push_cast; linarith)

theorem pixelWidths_sum_le_floor (w : ℕ) :
    ∀ (l : List (ℚ × ℚ)) (b e : ℚ), isTiling b e l = true →
      (pixelWidths w l).sum ≤ ⌊(e - b) * w⌋ := by
  intro l
  induction l with
  | nil => intro b e h; simp [isTiling] at h
  | cons p rest ih =>
    intro b e h
    cases rest with
    | nil =>
      simp [isTiling] at h
      simp [pixelWidths, pixelWidth, h.1, h.2]
    | cons q rest' =>
      have h1 : p.1 = b := isTiling_head h
      have h2 : isTiling p.2 e (q :: rest') = true := by
        simp only [isTiling] at h
        simpa using (by simpa using h : p.1 = b ∧ isTiling p.2 e (q :: rest') = true).2
      have hrest := ih p.2 e h2
      have hsplit : (p.2 - b) * w + (e - p.2) * w = (e - b) * w := by ring
      calc (pixelWidths w (p :: q :: rest')).sum
      _ = ⌊(p.2 - p.1) * w⌋ + (pixelWidths w (q :: rest')).sum := by
          simp [pixelWidths, pixelWidth]
      _ ≤ ⌊(p.2 - b) * w⌋ + ⌊(e - p.2) * w⌋ := by rw [h1]; omega
      _ ≤ ⌊(p.2 - b) * w + (e - p.2) * w⌋ := floor_add_floor_le _ _
      _ = ⌊(e - b) * w⌋ := by rw [hsplit]

/-- C8 (amended): for a shelf of width 300 the truncated pixel widths of
the items sum to at most 300; the sum can fall short of 300 (the rounding
remainder is dropped, not reconciled). -/
theorem pixel_widths_sum_le (l : List (ℚ × ℚ))
    (hT : isTiling 0 1 l = true) : (pixelWidths 300 l).sum ≤ 300 := by
  have h := pixelWidths_sum_le_floor 300 l 0 1 hT
  have : ((1 : ℚ) - 0) * (300 : ℕ) = 300 := by norm_num
  rw [this] at h
  simpa using h

unseal Rat.add Rat.mul Rat.sub Rat.inv in
theorem pixel_widths_sum_le_witness :
    (pixelWidths 300 [((0:ℚ), (1:ℚ)/4), (1/4, 1/2), (1/2, 3/4), (3/4, 1)]).sum ≤ 300 :=
  pixel_widths_sum_le [((0:ℚ), (1:ℚ)/4), (1/4, 1/2), (1/2, 3/4), (3/4, 1)] (by decide)

/-- Oracle drawing every split point at one third of the allowed range
(`uniformQ` at raw draw `1/3`); a reachable behaviour of
`random.uniform`. -/
def thirdPick (lo hi : ℚ) : ℚ := uniformQ lo hi (1/3)

-- C8 counterexample: a reachable run of `Shelf.divide` on `[0,1]` with
-- `min_item_width = 0.12`, `max_item_width = 0.27` whose truncated pixel
-- widths for a width-300 shelf sum to 297, not 300.
unseal Rat.add Rat.mul Rat.sub Rat.inv in
theorem pixel_widths_sum_ce :
    divideF thirdPick (12/100) (27/100) 8 0 1 =
      some [((0:ℚ), 37/225), (37/225, 84/225), (84/225, 140/225),
            (140/225, 532/675), (532/675, 1)] ∧
    (pixelWidths 300 [((0:ℚ), 37/225), (37/225, 84/225), (84/225, 140/225),
            (140/225, 532/675), (532/675, 1)]).sum = 297 := by
  constructor
  · decide
  · decide

/-! ## Item placement along a shelf (C10)

`Shelf.__init__` walks the partition left to right, placing item `i` at the
running x-offset and advancing it by `length * width` (exact, unfloored),
while the item itself is given the truncated pixel width. -/

def itemXs (w : ℚ) : ℚ → List (ℚ × ℚ) → List ℚ
  | _, [] => []
  | x, p :: rest => x :: itemXs w (x + (p.2 - p.1) * w) rest

theorem isTiling_tail {b e : ℚ} {p q : ℚ × ℚ} {rest : List (ℚ × ℚ)}
    (h : isTiling b e (p :: q :: rest) = true) :
    isTiling p.2 e (q :: rest) = true := by
  simp only [isTiling] at h
  exact (by simpa using h : p.1 = b ∧ isTiling p.2 e (q :: rest) = true).2

theorem isTiling_chain {b e : ℚ} {l : List (ℚ × ℚ)}
    (h : isTiling b e l = true) : l.Chain' (fun p q => p.2 = q.1) := by
  induction l generalizing b with
  | nil => simp
  | cons p rest ih =>
    cases rest with
    | nil => simp
    | cons q rest' =>
      have h2 := isTiling_tail h
      exact List.chain'_cons.mpr ⟨(isTiling_head h2).symm, ih (b := p.2) h2⟩

theorem isTiling_getLast {b e : ℚ} {l : List (ℚ × ℚ)}
    (h : isTiling b e l = true) :
    ∃ q, l.getLast? = some q ∧ q.2 = e := by
  induction l generalizing b with
  | nil => simp [isTiling] at h
  | cons p rest ih =>
    cases rest with
    | nil =>
      simp [isTiling] at h
      exact ⟨p, rfl, h.2⟩
    | cons q rest' =>
      have h2 := isTiling_tail h
      obtain ⟨r, hr, hre⟩ := ih (b := p.2) h2
      exact ⟨r, by rw [List.getLast?_cons_cons]; exact hr, hre⟩

theorem itemXs_eq (w x0 : ℚ) :
    ∀ (l : List (ℚ × ℚ)) (b e : ℚ), isTiling b e l = true →
      itemXs w (x0 + b * w) l = l.map fun p => x0 + p.1 * w := by
  intro l
  induction l with
  | nil => intro b e h; simp [isTiling] at h
  | cons p rest ih =>
    intro b e h
    have h1 : p.1 = b := isTiling_head h
    cases rest with
    | nil => simp [itemXs, h1]
    | cons q rest' =>
      have h2 := isTiling_tail h
      have hx : x0 + b * w + (p.2 - p.1) * w = x0 + p.2 * w := by
        rw [h1]; ring
      rw [show itemXs w (x0 + b * w) (p :: q :: rest') =
            (x0 + b * w) :: itemXs w (x0 + b * w + (p.2 - p.1) * w) (q :: rest')
          from rfl, hx, List.map_cons, h1]
      exact congrArg _ (ih p.2 e h2)

/-- C10: the items of a shelf are placed left-to-right without horizontal
overlap and inside the shelf extent: item `i` sits at the shelf's left `x`
plus `beginᵢ * width`, its truncated pixel width is at most
`(endᵢ - beginᵢ) * width`, each right edge is at most the next item's left
edge, and the last right edge is at most shelf left plus width. -/
theorem shelf_items_no_overlap (w : ℕ) (x0 : ℚ) (l : List (ℚ × ℚ))
    (hT : isTiling 0 1 l = true) :
    itemXs (w : ℚ) x0 l = (l.map fun p => x0 + p.1 * (w : ℚ)) ∧
    (∀ p ∈ l, ((pixelWidth w p : ℤ) : ℚ) ≤ (p.2 - p.1) * (w : ℚ) ∧
      x0 + p.1 * (w : ℚ) + ((pixelWidth w p : ℤ) : ℚ) ≤ x0 + p.2 * (w : ℚ)) ∧
    l.Chain' (fun p q =>
      x0 + p.1 * (w : ℚ) + ((pixelWidth w p : ℤ) : ℚ) ≤ x0 + q.1 * (w : ℚ)) ∧
    (∀ q ∈ l.getLast?, x0 + q.1 * (w : ℚ) + ((pixelWidth w q : ℤ) : ℚ) ≤ x0 + (w : ℚ)) := by
  refine ⟨?_, ?_, ?_, ?_⟩
  · have := itemXs_eq (w : ℚ) x0 l 0 1 hT
    simpa using this
  · intro p hp
    have hfl := Int.floor_le ((p.2 - p.1) * (w : ℚ))
    have hexp : (p.2 - p.1) * (w : ℚ) = p.2 * w - p.1 * w := by ring
    exact ⟨hfl, by unfold pixelWidth; linarith⟩
  · refine (isTiling_chain hT).imp ?_
    intro p q hpq
    have hfl := Int.floor_le ((p.2 - p.1) * (w : ℚ))
    have hexp : (p.2 - p.1) * (w : ℚ) = p.2 * w - p.1 * w := by ring
    rw [← hpq]
    unfold pixelWidth
    linarith
  · obtain ⟨q, hq, hqe⟩ := isTiling_getLast hT
    intro r hr
    rw [hq] at hr
    simp at hr
    subst hr
    have hfl := Int.floor_le ((q.2 - q.1) * (w : ℚ))
    have hexp : (q.2 - q.1) * (w : ℚ) = (w : ℚ) - q.1 * w := by rw [hqe]; ring
    unfold pixelWidth
    linarith

unseal Rat.add Rat.mul Rat.sub Rat.inv in
theorem shelf_items_no_overlap_witness :
    itemXs ((270 : ℕ) : ℚ) 240 [((0:ℚ), (1:ℚ)/4), (1/4, 1/2), (1/2, 3/4), (3/4, 1)] =
      ([((0:ℚ), (1:ℚ)/4), (1/4, 1/2), (1/2, 3/4), (3/4, 1)].map
        fun p => 240 + p.1 * ((270 : ℕ) : ℚ)) :=
  (shelf_items_no_overlap 270 240
    [((0:ℚ), (1:ℚ)/4), (1/4, 1/2), (1/2, 3/4), (3/4, 1)] (by decide)).1

/-! ## Coordinates (`class Coords`)

`Coords.__init__(x, y)` stores `(x - W//2, y - H//2)`; `undo_shift` adds
`(W//2, H//2)` back (mutating in place in the source; values here);
`__add__` rebuilds a `Coords` from the summed components; `add_unbiased`
rebuilds a `Coords` from the components plus a raw offset pair. -/

def halfW : ℚ := ((windowW / 2 : ℕ) : ℚ)
def halfH : ℚ := ((windowH / 2 : ℕ) : ℚ)

def mkCoords (x y : ℚ) : ℚ × ℚ := (x - halfW, y - halfH)

def undoShift (c : ℚ × ℚ) : ℚ × ℚ := (c.1 + halfW, c.2 + halfH)

def addCoords (c o : ℚ × ℚ) : ℚ × ℚ := mkCoords (c.1 + o.1) (c.2 + o.2)

def addUnbiased (c : ℚ × ℚ) (dx dy : ℚ) : ℚ × ℚ := mkCoords (c.1 + dx) (c.2 + dy)

/-- C4 (amended): `add_unbiased (dx, dy)` equals `add (Coords dx dy)`
followed by one `undo_shift`; but this value is still one recenter short of
the device-aligned value: every drawing call site applies a further
`undo_shift` to it before drawing (see the counterexample on the jar's lid
rectangle). -/
theorem addUnbiased_eq_add_then_undoShift (c : ℚ × ℚ) (dx dy : ℚ) :
    addUnbiased c dx dy = undoShift (addCoords c (mkCoords dx dy)) := by
  unfold addUnbiased addCoords undoShift mkCoords
  apply Prod.ext_iff.mpr
  constructor
  · show c.1 + dx - halfW = c.1 + (dx - halfW) - halfW + halfW
    ring
  · show c.2 + dy - halfH = c.2 + (dy - halfH) - halfH + halfH
    ring

/-- C5 (amended): `undo_shift` is not idempotent: it is the exact inverse of
the constructor's centering shift (`undoShift (mkCoords x y) = (x, y)`),
and each further application moves the point by another half-window
offset. -/
theorem undoShift_inverts_mk_not_idempotent :
    (∀ x y : ℚ, undoShift (mkCoords x y) = (x, y)) ∧
    (∀ c : ℚ × ℚ, undoShift (undoShift c) ≠ undoShift c) := by
  constructor
  · intro x y
    unfold undoShift mkCoords
    apply Prod.ext_iff.mpr
    constructor
    · show x - halfW + halfW = x
      ring
    · show y - halfH + halfH = y
      ring
  · intro c h
    have h1 := congrArg Prod.fst h
    have hW : halfW = 800 := by norm_num [halfW, windowW]
    simp [undoShift, hW] at h1

-- C5 counterexample: applying `undo_shift` twice does not yield the same
-- coordinates as applying it once.
unseal Rat.add Rat.mul Rat.sub in
theorem undoShift_not_idempotent_ce :
    undoShift (undoShift (mkCoords 0 0)) ≠ undoShift (mkCoords 0 0) := by
  decide

/-! ## Item sizing (`Jar.__init__`, `Salt.__init__`, `Beer.__init__`)

Salt compares `(sqrt 3 * w) // 2 > h`, i.e. `⌊√3·w/2⌋ > h`, which over the
integers is `4*(h+1)^2 ≤ 3*w^2`; the shrunk side is `h // (√3/2)`, i.e.
`⌊√(4h²/3)⌋ = Nat.sqrt (4h²/3)`. -/

def jarInitH (h : ℕ) (u : ℚ) : ℕ := randintN (h / 2) h u

def saltShrinkTrigger (w h : ℕ) : Bool := 4 * (h + 1) ^ 2 ≤ 3 * w ^ 2

def saltInitW (w h : ℕ) : ℕ :=
  if saltShrinkTrigger w h then Nat.sqrt (4 * h ^ 2 / 3) else w

def beerInit (w h : ℕ) (u : ℚ) : ℕ × ℕ :=
  if 2 * w < h then (w, randintN (2 * w) h u) else (h / 2, h)

/-- C6 (amended): the Jar keeps width `w` and draws its height from
`[h/2, h]`; the Beer fits its `(w, h)` budget exactly as claimed; the Salt
keeps `side ≤ w`, and whenever its shrink does trigger the new side makes
the triangle height fit within `h` (`3·side² ≤ 4h²`); but in general the
clamping only guarantees the height stays below `h + 1`
(`3·side² < 4(h+1)²`): when the true height exceeds `h` by a fraction less
than one pixel, no shrink happens and the budget is exceeded (see the
counterexample). -/
theorem item_sizing_fits (w h : ℕ) (u : ℚ) :
    (h / 2 ≤ jarInitH h u ∧ jarInitH h u ≤ h) ∧
    ((beerInit w h u).1 ≤ w ∧ (beerInit w h u).2 ≤ h) ∧
    (saltInitW w h ≤ w ∧ 3 * saltInitW w h ^ 2 < 4 * (h + 1) ^ 2) ∧
    (saltShrinkTrigger w h = true → 3 * saltInitW w h ^ 2 ≤ 4 * h ^ 2) := by
  refine ⟨⟨le_randintN _ _ _, randintN_le _ _ _ (Nat.div_le_self h 2)⟩, ?_, ?_, ?_⟩
  · unfold beerInit
    split
    · next hlt => exact ⟨le_refl w, randintN_le _ _ _ (le_of_lt hlt)⟩
    · next hge => exact ⟨by omega, le_refl h⟩
  · unfold saltInitW
    split
    · next htrig =>
      have htrig' : 4 * (h + 1) ^ 2 ≤ 3 * w ^ 2 := by
        simpa [saltShrinkTrigger] using htrig
      have hsq : Nat.sqrt (4 * h ^ 2 / 3) * Nat.sqrt (4 * h ^ 2 / 3) ≤ 4 * h ^ 2 / 3 :=
        Nat.sqrt_le _
      have hdiv : 3 * (4 * h ^ 2 / 3) ≤ 4 * h ^ 2 := by omega
      have hS2 : Nat.sqrt (4 * h ^ 2 / 3) ^ 2 ≤ 4 * h ^ 2 / 3 := by
        rw [pow_two]; exact hsq
      have hCD : h ^ 2 < (h + 1) ^ 2 := by
        have hx : (h + 1) ^ 2 = h ^ 2 + 2 * h + 1 := by ring
        omega
      have hlt : 3 * Nat.sqrt (4 * h ^ 2 / 3) ^ 2 < 4 * (h + 1) ^ 2 := by omega
      refine ⟨?_, hlt⟩
      have hsq2 : Nat.sqrt (4 * h ^ 2 / 3) ^ 2 < w ^ 2 := by omega
      exact le_of_lt ((Nat.pow_lt_pow_iff_left (by norm_num)).mp hsq2)
    · next htrig =>
      have : ¬ (4 * (h + 1) ^ 2 ≤ 3 * w ^ 2) := by
        simpa [saltShrinkTrigger] using htrig
      exact ⟨le_refl w, by omega⟩
  · intro htrig
    unfold saltInitW
    rw [if_pos htrig]
    have hsq : Nat.sqrt (4 * h ^ 2 / 3) * Nat.sqrt (4 * h ^ 2 / 3) ≤ 4 * h ^ 2 / 3 :=
      Nat.sqrt_le _
    have hS2 : Nat.sqrt (4 * h ^ 2 / 3) ^ 2 ≤ 4 * h ^ 2 / 3 := by
      rw [pow_two]; exact hsq
    omega

theorem item_sizing_fits_witness :
    3 * saltInitW 10 6 ^ 2 ≤ 4 * 6 ^ 2 :=
  (item_sizing_fits 10 6 0).2.2.2 (by decide)

-- C6 counterexample: for slot budget `(w, h) = (5, 4)` the equilateral
-- triangle of side 5 is taller than 4 (`3·5² > 4·4²`), yet the code's
-- floored test does not trigger the shrink, so the Salt keeps side 5 and
-- its height exceeds the budget.
theorem salt_exceeds_budget_ce :
    saltInitW 5 4 = 5 ∧ saltShrinkTrigger 5 4 = false ∧
      4 * 4 ^ 2 < 3 * saltInitW 5 4 ^ 2 := by
  refine ⟨by decide, by decide, by decide⟩

/-! ## Shelf stacking inside a rack (`Rack.__init__`)

The rack draws `k - 1` shelves of height `rackHeight // k` bottom-to-top,
then one final shelf of half that height; `stackDims sh m y` lists the
`(height, y)` pairs produced with `m` full-height shelves remaining. -/

def stackDims (sh : ℕ) : ℕ → ℕ → List (ℕ × ℕ)
  | 0, y => [(sh / 2, y)]
  | m + 1, y => (sh, y) :: stackDims sh m (y + sh)

theorem stackDims_map_fst (sh : ℕ) :
    ∀ (m y : ℕ), (stackDims sh m y).map Prod.fst =
      List.replicate m sh ++ [sh / 2] := by
  intro m
  induction m with
  | zero => intro y; simp [stackDims]
  | succ m ih =>
    intro y
    simp [stackDims, List.replicate_succ, ih (y + sh)]

/-- C7: a rack constructed with shelf count `k ≥ 1` creates exactly `k`
shelves: the first `k - 1` have height `rackHeight / k`, the final one has
half that height, and the stacked heights sum to at most `rackHeight`. -/
theorem rack_shelf_stack (k h y0 : ℕ) (hk : 1 ≤ k) :
    (stackDims (h / k) (k - 1) y0).length = k ∧
    (stackDims (h / k) (k - 1) y0).map Prod.fst =
      List.replicate (k - 1) (h / k) ++ [h / k / 2] ∧
    ((stackDims (h / k) (k - 1) y0).map Prod.fst).sum ≤ h := by
  have hmap := stackDims_map_fst (h / k) (k - 1) y0
  refine ⟨?_, hmap, ?_⟩
  · have := congrArg List.length hmap
    simp at this
    omega
  · rw [hmap]
    have hsum : (List.replicate (k - 1) (h / k) ++ [h / k / 2]).sum =
        (k - 1) * (h / k) + h / k / 2 := by
      simp [List.sum_replicate, smul_eq_mul]
    rw [hsum]
    have h1 : h / k * k ≤ h := Nat.div_mul_le_self h k
    have h2 : h / k / 2 ≤ h / k := Nat.div_le_self _ 2
    have h3 : (k - 1) * (h / k) + h / k = k * (h / k) := by
      cases k with
      | zero => omega
      | succ k' =>
        simp only [Nat.add_sub_cancel]
        ring
    calc (k - 1) * (h / k) + h / k / 2
        ≤ (k - 1) * (h / k) + h / k := Nat.add_le_add_left h2 _
      _ = k * (h / k) := h3
      _ = h / k * k := Nat.mul_comm _ _
      _ ≤ h := h1

theorem rack_shelf_stack_witness :
    (stackDims (630 / 7) (7 - 1) 180).length = 7 ∧
    (stackDims (630 / 7) (7 - 1) 180).map Prod.fst =
      List.replicate (7 - 1) (630 / 7) ++ [630 / 7 / 2] ∧
    ((stackDims (630 / 7) (7 - 1) 180).map Prod.fst).sum ≤ 630 :=
  rack_shelf_stack 7 630 180 (by decide)

/-! ## Beer cap color branch (`Beer.draw`)

The draw phase picks `ran = random.randint(0, 10)` and uses the independent
random cap color exactly when `ran == 0`, the label color otherwise. -/

def capUsesRandom (ran : ℕ) : Bool := ran == 0

def capBranchDraws : Finset ℕ := Finset.Icc 0 10

def capRandomProb : ℚ :=
  ((capBranchDraws.filter fun r => capUsesRandom r = true).card : ℚ) /
    (capBranchDraws.card : ℚ)

/-- C9: `randint(0, 10)` is inclusive on both ends, giving 11 equally
likely outcomes, so the independently random cap color is used with
probability `1/11` (≈ 9.1%), not 10%, and the label color with `10/11`,
not 90% — the code contradicts its own comment ("In 10% cases"). -/
theorem beer_cap_probability :
    capBranchDraws.card = 11 ∧ capRandomProb = 1 / 11 ∧ capRandomProb ≠ 1 / 10 := by
  have hcard : capBranchDraws.card = 11 := by decide
  have hfilter : (capBranchDraws.filter fun r => capUsesRandom r = true).card = 1 := by
    decide
  refine ⟨hcard, ?_, ?_⟩
  · unfold capRandomProb
    rw [hcard, hfilter]
    norm_num
  · unfold capRandomProb
    rw [hcard, hfilter]
    norm_num

/-! ## Whole-program trace (`main`)

`main()` seeds the generator, then builds the `Screen` and draws it.  The
class body of `GlobalSetup` runs at module import, before `random.seed` in
`main`: `n_racks = random.randint(...)` is drawn from the unseeded source.
The model therefore takes two streams: `imp` for the import-time draws and
`s` for the seeded source (which is identical across runs with the same
seed).  The trace is the list of turtle drawing calls in program order,
with the exact positions, shapes and colors the source passes. -/

abbrev RStream := ℕ → ℚ

def cWhite : ℕ × ℕ × ℕ := (255, 255, 255)
def cBlack : ℕ × ℕ × ℕ := (0, 0, 0)
def cDarkGray : ℕ × ℕ × ℕ := (162, 162, 162)
def cYellow : ℕ × ℕ × ℕ := (255, 229, 124)
def cCellarBg : ℕ × ℕ × ℕ := (211, 211, 211)

/-- Model of `Color.random_color`: three full-range channel draws. -/
def randomColor (s : RStream) (i : ℕ) : (ℕ × ℕ × ℕ) × ℕ :=
  ((randintN 0 255 (s i), randintN 0 255 (s (i + 1)), randintN 0 255 (s (i + 2))), i + 3)

/-- Model of `Color.random_gray`: one draw in `[0xCC, 0xFF]`, used for all channels. -/
def randomGray (s : RStream) (i : ℕ) : (ℕ × ℕ × ℕ) × ℕ :=
  let v := randintN 204 255 (s i)
  ((v, v, v), i + 1)

/-- Model of `Color.random_beer_color`: a coin, then three channel draws whose
ranges depend on the coin. -/
def randomBeerColor (s : RStream) (i : ℕ) : (ℕ × ℕ × ℕ) × ℕ :=
  if randintN 0 1 (s i) = 0 then
    ((randintN 0 16 (s (i + 1)), randintN 112 144 (s (i + 2)), randintN 0 16 (s (i + 3))), i + 4)
  else
    ((randintN 73 105 (s (i + 1)), randintN 44 76 (s (i + 2)), randintN 0 47 (s (i + 3))), i + 4)

inductive DrawCall where
  | rect (pos : ℚ × ℚ) (shape : ℕ × ℕ) (bg pen : ℕ × ℕ × ℕ)
  | tri (pos : ℚ × ℚ) (side : ℕ) (bg pen : ℕ × ℕ × ℕ)
  | bottle (pos : ℚ × ℚ) (w h : ℕ) (bg pen : ℕ × ℕ × ℕ)
  deriving DecidableEq

inductive Item where
  | jar (lb : ℚ × ℚ) (w h : ℕ) (color : ℕ × ℕ × ℕ)
  | salt (lb : ℚ × ℚ) (w : ℕ) (color : ℕ × ℕ × ℕ)
  | beer (lb : ℚ × ℚ) (w h : ℕ) (beerC labelC capC : ℕ × ℕ × ℕ)
  deriving DecidableEq

/-- Model of `Jar.__init__`: base color, then height redrawn from `[h//2, h]`. -/
def buildJar (s : RStream) (i : ℕ) (lb : ℚ × ℚ) (w h : ℕ) : Item × ℕ :=
  let c := randomColor s i
  (Item.jar lb w (jarInitH h (s c.2)) c.1, c.2 + 1)

/-- Model of `Salt.__init__`: base color (overwritten), gray color, then the width
shrink with horizontal recentering when the floored triangle height
exceeds the budget. -/
def buildSalt (s : RStream) (i : ℕ) (lb : ℚ × ℚ) (w h : ℕ) : Item × ℕ :=
  let c0 := randomColor s i
  let g := randomGray s c0.2
  if saltShrinkTrigger w h then
    let nw := Nat.sqrt (4 * h ^ 2 / 3)
    (Item.salt (undoShift (addUnbiased lb (((w - nw) / 2 : ℕ) : ℚ) 0)) nw g.1, g.2)
  else
    (Item.salt lb w g.1, g.2)

/-- Model of `Beer.__init__`: base color, bottle color, label color, cap color,
then the height/width clamping. -/
def buildBeer (s : RStream) (i : ℕ) (lb : ℚ × ℚ) (w h : ℕ) : Item × ℕ :=
  let c0 := randomColor s i
  let bc := randomBeerColor s c0.2
  let lc := randomColor s bc.2
  let cc := randomColor s lc.2
  if 2 * w < h then
    (Item.beer lb w (randintN (2 * w) h (s cc.2)) bc.1 lc.1 cc.1, cc.2 + 1)
  else
    (Item.beer (undoShift (addUnbiased lb (((w - h / 2) / 2 : ℕ) : ℚ) 0)) (h / 2) h
      bc.1 lc.1 cc.1, cc.2)

/-- Model of `random.choice(list(ItemType))` over `[JAR, JAR2, SALT, BEER, BEER2]`,
then the chosen constructor. -/
def buildItem (s : RStream) (i : ℕ) (lb : ℚ × ℚ) (w h : ℕ) : Item × ℕ :=
  let k := randintN 0 4 (s i)
  if k ≤ 1 then buildJar s (i + 1) lb w h
  else if k = 2 then buildSalt s (i + 1) lb w h
  else buildBeer s (i + 1) lb w h

/-- The item loop of `Shelf.__init__`: walk the partition, give each item
the truncated pixel width and `height - rack_thickness`, advance the
x-offset by the exact `length * width`. -/
def buildItems (s : RStream) (w h : ℕ) :
    List (ℚ × ℚ) → ℚ → ℚ → ℕ → List Item × ℕ
  | [], _, _, i => ([], i)
  | p :: rest, x, y, i =>
    let it := buildItem s i (mkCoords x y) (pixelWidth w p).toNat (h - rackThickness)
    let more := buildItems s w h rest (x + (p.2 - p.1) * w) y it.2
    (it.1 :: more.1, more.2)

/-- Model of `Shelf.divide` consuming split points from the stream.  Fuel 64 is used
below; it is never exhausted in either configuration regime, because every
level of recursion shrinks the span by at least `min_item_width ≥ 0.08`, so
the depth on `[0,1]` is at most 13. -/
def divideS (s : RStream) (minW maxW : ℚ) :
    ℕ → ℚ → ℚ → ℕ → List (ℚ × ℚ) × ℕ
  | 0, b, e, i => ([(b, e)], i)
  | f + 1, b, e, i =>
    if maxW < e - b then
      let p := uniformQ (b + minW) (e - minW) (s i)
      let left := divideS s minW maxW f b p (i + 1)
      let right := divideS s minW maxW f p e left.2
      (left.1 ++ right.1, right.2)
    else
      ([(b, e)], i)

structure ShelfM where
  width : ℕ
  height : ℕ
  lb : ℕ × ℕ
  color : ℕ × ℕ × ℕ
  items : List Item
  deriving DecidableEq

def buildShelf (s : RStream) (minW maxW : ℚ) (w h : ℕ) (c : ℕ × ℕ)
    (color : ℕ × ℕ × ℕ) (i : ℕ) : ShelfM × ℕ :=
  let d := divideS s minW maxW 64 0 1 i
  let its := buildItems s w h d.1 (c.1 : ℚ) ((c.2 + rackThickness : ℕ) : ℚ) d.2
  (⟨w, h, c, color, its.1⟩, its.2)

structure RackM where
  width : ℕ
  height : ℕ
  lb : ℕ × ℕ
  color : ℕ × ℕ × ℕ
  shelves : List ShelfM
  deriving DecidableEq

def buildShelfList (s : RStream) (minW maxW : ℚ) (shelfW x : ℕ)
    (color : ℕ × ℕ × ℕ) : List (ℕ × ℕ) → ℕ → List ShelfM × ℕ
  | [], i => ([], i)
  | (h, y) :: rest, i =>
    let sh := buildShelf s minW maxW shelfW h (x, y) color i
    let more := buildShelfList s minW maxW shelfW x color rest sh.2
    (sh.1 :: more.1, more.2)

/-- Model of `Rack.__init__`: shelf-count draw, rack color, then the stacked
shelves (`k - 1` full, one half-height on top, via `stackDims`). -/
def buildRack (s : RStream) (minW maxW : ℚ) (w h : ℕ) (c : ℕ × ℕ) (i : ℕ) :
    RackM × ℕ :=
  let k := randintN minShelves maxShelves (s i)
  let col := randomColor s (i + 1)
  let shelfW := w - 2 * rackThickness
  let shelfH := h / k
  let y0 := c.2 + shelfH / 2 - rackThickness / 2
  let shs := buildShelfList s minW maxW shelfW (c.1 + rackThickness) col.1
    (stackDims shelfH (k - 1) y0) col.2
  (⟨w, h, c, col.1, shs.1⟩, shs.2)

def buildRacks (s : RStream) (minW maxW : ℚ) (rackW rackH : ℕ) :
    ℕ → ℕ × ℕ → ℕ → List RackM × ℕ
  | 0, _, i => ([], i)
  | n + 1, c, i =>
    let r := buildRack s minW maxW rackW rackH c i
    let more := buildRacks s minW maxW rackW rackH n (c.1 + rackW, c.2) r.2
    (r.1 :: more.1, more.2)

/-- The drawing calls of one item (`Jar.draw`, `Salt.draw`, `Beer.draw`);
`Beer.draw` consumes the cap-branch draw `randint(0, 10)`. -/
def drawItem (s : RStream) : Item → ℕ → List DrawCall × ℕ
  | .jar lb w h c, i =>
    ([.rect lb (w, 6 * h / 7) cWhite cBlack,
      .rect (undoShift (addUnbiased lb ((w / 10 : ℕ) : ℚ) ((6 * h / 7 : ℕ) : ℚ)))
        (4 * w / 5, max 3 (h / 7)) cDarkGray cDarkGray,
      .rect lb (w, 54 * h / 70) c cBlack,
      .rect (undoShift (addUnbiased lb ((w / 4 : ℕ) : ℚ) ((3 * h / 14 : ℕ) : ℚ)))
        (w / 2, 3 * h / 7) cYellow cBlack], i)
  | .salt lb w c, i => ([.tri lb w c cBlack], i)
  | .beer lb w h bc lc cc, i =>
    let ran := randintN 0 10 (s i)
    let capPos := undoShift (addUnbiased lb ((w / 3 : ℕ) : ℚ) ((11 * h / 12 : ℕ) : ℚ))
    ([.bottle lb w h bc cBlack,
      .rect (undoShift (addUnbiased lb 0 ((h / 6 : ℕ) : ℚ))) (w, h / 4) lc cBlack,
      if capUsesRandom ran then .rect capPos (w / 3, h / 12) cc cc
      else .rect capPos (w / 3, h / 12) lc lc], i + 1)

def drawItemList (s : RStream) : List Item → ℕ → List DrawCall × ℕ
  | [], i => ([], i)
  | it :: rest, i =>
    let d := drawItem s it i
    let more := drawItemList s rest d.2
    (d.1 ++ more.1, more.2)

/-- Model of `Shelf.draw`: the shelf board, then the items. -/
def drawShelf (s : RStream) (sh : ShelfM) (i : ℕ) : List DrawCall × ℕ :=
  let d := drawItemList s sh.items i
  (DrawCall.rect (mkCoords (sh.lb.1 : ℚ) (sh.lb.2 : ℚ)) (sh.width, rackThickness)
      sh.color sh.color :: d.1, d.2)

def drawShelfList (s : RStream) : List ShelfM → ℕ → List DrawCall × ℕ
  | [], i => ([], i)
  | sh :: rest, i =>
    let d := drawShelf s sh i
    let more := drawShelfList s rest d.2
    (d.1 ++ more.1, more.2)

/-- Model of `Rack.draw_rack_alone`: the two vertical side bars. -/
def rackBars (r : RackM) : List DrawCall :=
  [DrawCall.rect (mkCoords (r.lb.1 : ℚ) (r.lb.2 : ℚ)) (rackThickness, r.height)
      r.color r.color,
   DrawCall.rect (mkCoords ((r.lb.1 + r.width - rackThickness : ℕ) : ℚ) (r.lb.2 : ℚ))
      (rackThickness, r.height) r.color r.color]

/-- Model of `Rack.draw`: bars, shelves, bars again. -/
def drawRack (s : RStream) (r : RackM) (i : ℕ) : List DrawCall × ℕ :=
  let d := drawShelfList s r.shelves i
  (rackBars r ++ d.1 ++ rackBars r, d.2)

def drawRackList (s : RStream) : List RackM → ℕ → List DrawCall × ℕ
  | [], i => ([], i)
  | r :: rest, i =>
    let d := drawRack s r i
    let more := drawRackList s rest d.2
    (d.1 ++ more.1, more.2)

/-- Model of `GlobalSetup.n_racks`: drawn at module import from the unseeded
source. -/
def nRacksOf (imp : RStream) : ℕ := randintN minRacksC maxRacksC (imp 0)

/-- Model of `Screen.__init__` and `Screen.draw` for a given rack count: background
rectangle, then each rack built and drawn left to right. -/
def screenTrace (n : ℕ) (s : RStream) : List DrawCall :=
  let bounds := itemBounds n
  let rackW := realW / n
  let racks := buildRacks s bounds.1 bounds.2 rackW realH n (padLeft, padBottom) 0
  DrawCall.rect (mkCoords (padLeft : ℚ) (padBottom : ℚ)) (realW, realH)
      cCellarBg cCellarBg
    :: (drawRackList s racks.1 racks.2).1

/-- Model of `main()`: the rack count comes from the import-time stream, everything
after `random.seed(677)` from the seeded stream. -/
def mainTrace (imp s : RStream) : List DrawCall := screenTrace (nRacksOf imp) s

/-- C2 (amended): two runs with the same seed and window dimensions
produce an identical sequence of drawing calls only if their import-time
rack-count draws also agree: `n_racks` is drawn before `main` sets the
seed, and the whole trace is a function of `n_racks` and the seeded
stream. -/
theorem trace_determined_by_seed_and_racks (imp1 imp2 s : RStream)
    (h : nRacksOf imp1 = nRacksOf imp2) :
    mainTrace imp1 s = mainTrace imp2 s := by
  unfold mainTrace
  rw [h]

theorem trace_determined_witness :
    mainTrace (fun _ => 0) (fun _ => 0) = mainTrace (fun _ => 0) (fun _ => 0) :=
  trace_determined_by_seed_and_racks (fun _ => 0) (fun _ => 0) (fun _ => 0) rfl

-- C2 counterexample: same seeded stream, same window dimensions, but two
-- import-time streams drawing 4 racks in one run and 5 in the other; the
-- third drawing call (the first rack's right bar) already differs, so the
-- traces are not equal.
unseal Rat.add Rat.mul Rat.sub in
theorem trace_seed_not_sufficient_ce :
    mainTrace (fun _ => 0) (fun _ => 0) ≠ mainTrace (fun _ => mkRat 1 8) (fun _ => 0) := by
  intro h
  have h2 := congrArg (fun l => l.get? 2) h
  revert h2
  decide

-- C4 counterexample: the jar's lid rectangle is drawn at
-- `undo_shift(add_unbiased(lb, d))`, not at `add_unbiased(lb, d)`: the
-- value produced by `add_unbiased` is not usable directly for drawing; an
-- additional recenter is applied at every drawing call site.
unseal Rat.add Rat.mul Rat.sub in
theorem addUnbiased_needs_recenter_ce :
    (drawItem (fun _ => 0) (Item.jar (mkCoords 300 200) 20 40 cBlack) 0).1.get? 1 =
      some (DrawCall.rect (undoShift (addUnbiased (mkCoords 300 200) 2 34))
        (16, 5) cDarkGray cDarkGray) ∧
    undoShift (addUnbiased (mkCoords 300 200) 2 34) ≠ addUnbiased (mkCoords 300 200) 2 34 := by
  constructor
  · decide
  · decide
